import Mathlib

/-!
Verification development for the HugeCTR `metrics.cu` evaluation-metric unit
(AUC engine and AverageLoss engine).  The device kernels and host logic of
`HugeCTR/src/metrics.cu` are shallowly embedded as executable Lean functions:

* single-precision values are modelled by exact rationals extended with the
  IEEE special values (`FVal`): rounding is not modelled, but NaN and ±∞
  follow the IEEE rules for the operations the kernels use;
* device arrays become `List`s, kernel grid loops become maps/folds over
  `List.range`, and the cub primitives (radix sort, inclusive scan, flagged
  selection) are modelled by stable insertion sort, a scan and a filter.
-/

namespace Metrics

/-- Model of an IEEE single-precision value: a finite value (an exact
rational — rounding is not modelled), an infinity with a sign
(`true` = `+∞`), or NaN. -/
inductive FVal where
  | fin : ℚ → FVal
  | inf : Bool → FVal
  | nan : FVal
deriving DecidableEq, Repr

namespace FVal

/-- IEEE negation. -/
def fneg : FVal → FVal
  | fin a => fin (-a)
  | inf s => inf (!s)
  | nan => nan

/-- IEEE addition: NaN absorbs, opposite infinities give NaN. -/
def fadd : FVal → FVal → FVal
  | nan, _ => nan
  | _, nan => nan
  | fin a, fin b => fin (a + b)
  | fin _, inf s => inf s
  | inf s, fin _ => inf s
  | inf s, inf t => if s = t then inf s else nan

/-- IEEE subtraction, as addition of the negation. -/
def fsub (a b : FVal) : FVal := fadd a (fneg b)

/-- IEEE multiplication: NaN absorbs, `0 * ∞ = NaN`, signs multiply. -/
def fmul : FVal → FVal → FVal
  | nan, _ => nan
  | _, nan => nan
  | fin a, fin b => fin (a * b)
  | fin a, inf s => if a = 0 then nan else inf (if 0 < a then s else !s)
  | inf s, fin a => if a = 0 then nan else inf (if 0 < a then s else !s)
  | inf s, inf t => inf (s = t)

/-- IEEE division: `0/0 = NaN`, `x/0 = ±∞` for `x ≠ 0`, `x/∞ = 0`,
`∞/∞ = NaN`, NaN absorbs. -/
def fdiv : FVal → FVal → FVal
  | nan, _ => nan
  | _, nan => nan
  | fin a, fin b =>
      if b = 0 then (if a = 0 then nan else inf (0 < a)) else fin (a / b)
  | fin _, inf _ => fin 0
  | inf s, fin b => if 0 ≤ b then inf s else inf (!s)
  | inf _, inf _ => nan

/-- IEEE `≤` comparison: any comparison involving NaN is false. -/
def fle : FVal → FVal → Bool
  | nan, _ => false
  | _, nan => false
  | fin a, fin b => decide (a ≤ b)
  | fin _, inf s => s
  | inf s, fin _ => !s
  | inf s, inf t => !s || t

/-- `true` exactly on finite values (neither NaN nor an infinity). -/
def isFinite : FVal → Bool
  | fin _ => true
  | _ => false

instance : Neg FVal := ⟨fneg⟩
instance : Add FVal := ⟨fadd⟩
instance : Sub FVal := ⟨fsub⟩
instance : Mul FVal := ⟨fmul⟩
instance : Div FVal := ⟨fdiv⟩

theorem add_def (a b : FVal) : a + b = fadd a b := rfl

theorem sub_def (a b : FVal) : a - b = fsub a b := rfl

theorem mul_def (a b : FVal) : a * b = fmul a b := rfl

theorem div_def (a b : FVal) : a / b = fdiv a b := rfl

@[simp] theorem fin_add_fin (a b : ℚ) : fin a + fin b = fin (a + b) := rfl

@[simp] theorem fin_sub_fin (a b : ℚ) : fin a - fin b = fin (a - b) := by
  show fadd (fin a) (fneg (fin b)) = fin (a - b)
  simp [fadd, fneg, sub_eq_add_neg]

@[simp] theorem fin_mul_fin (a b : ℚ) : fin a * fin b = fin (a * b) := rfl

theorem fin_div_fin {b : ℚ} (a : ℚ) (hb : b ≠ 0) :
    fin a / fin b = fin (a / b) := by
  show fdiv (fin a) (fin b) = fin (a / b)
  simp [fdiv, hb]

@[simp] theorem nan_add (a : FVal) : nan + a = nan := by
  cases a <;> rfl

@[simp] theorem add_nan (a : FVal) : a + nan = nan := by
  cases a <;> rfl

@[simp] theorem nan_mul (a : FVal) : nan * a = nan := by
  cases a <;> rfl

@[simp] theorem mul_nan (a : FVal) : a * nan = nan := by
  cases a <;> rfl

@[simp] theorem nan_sub (a : FVal) : nan - a = nan := by
  cases a <;> rfl

@[simp] theorem sub_nan (a : FVal) : a - nan = nan := by
  cases a <;> rfl

@[simp] theorem nan_div (a : FVal) : nan / a = nan := by
  cases a <;> rfl

@[simp] theorem div_nan (a : FVal) : a / nan = nan := by
  cases a <;> rfl

@[simp] theorem zero_div_zero : fin 0 / fin 0 = nan := rfl

end FVal

/-- Floating-point tie tolerance: `const float eps = 1e-32;`
(metrics.cu line 28), modelled by the exact rational `10⁻³²`. -/
def eps : ℚ := 1 / 10 ^ 32

/-- `unique_flag_kernel` (metrics.cu lines 30–41): for each position
`gid < num_elems - 1` the flag is 1 iff `data[gid] - data[gid+1] > eps`
(the data is assumed sorted descending); the last position always gets
flag 1.  The grid-stride loop over `gid` becomes structural recursion on
the positions. -/
def unique_flag : List ℚ → List ℕ
  | [] => []
  | [_] => [1]
  | a :: b :: rest => (if a - b > eps then 1 else 0) :: unique_flag (b :: rest)

/-- `cub::DeviceScan::InclusiveSum` on a float array (used on the sorted
labels, metrics.cu lines 370–371), threading the running sum `acc`. -/
def incSum (acc : ℚ) : List ℚ → List ℚ
  | [] => []
  | x :: xs => (acc + x) :: incSum (acc + x) xs

/-- `cub::DeviceSelect::Flagged` (metrics.cu lines 373–374): keep the
values whose flag is 1, in order. -/
def selectFlagged : List ℚ → List ℕ → List ℚ
  | v :: vs, f :: fs =>
      if f = 1 then v :: selectFlagged vs fs else selectFlagged vs fs
  | _, _ => []

/-- `unique_index_kernel` (metrics.cu lines 43–52): for every position with
flag 1, write that position into slot `flag_inc_sum[gid] - 1` of the
`unique_index` array.  The inclusive prefix sum of the flag array
(`d_flag_inc_sum`, computed by `cub::DeviceScan::InclusiveSum` at lines
380–381) is threaded as the running count `cnt`. -/
def uniqueIndexGo (gid cnt : ℕ) : List ℕ → List ℕ → List ℕ
  | [], buf => buf
  | f :: fs, buf =>
      uniqueIndexGo (gid + 1) (cnt + f) fs
        (if f = 1 then buf.set (cnt + f - 1) gid else buf)

/-- The first `num_selected` entries of the `d_unique_index` device array
after `unique_index_kernel` has run over the whole flag array. -/
def unique_index_model (flags : List ℕ) (num_selected : ℕ) : List ℕ :=
  uniqueIndexGo 0 0 flags (List.replicate num_selected 0)

/-- The positions whose flag is 1, in increasing order: the reference
characterization against which `selectFlagged` and `unique_index_model`
are proved correct. -/
def flaggedPos : List ℕ → List ℕ
  | [] => []
  | f :: fs =>
      if f = 1 then 0 :: (flaggedPos fs).map (fun j => j + 1)
      else (flaggedPos fs).map (fun j => j + 1)

/-- `create_fpr_kernel` (metrics.cu lines 54–64): `pos_cnt` is
`tpr[num_selected - 1]` (the last compacted cumulative-positive count),
`neg_cnt = num_total - pos_cnt`; for each `gid < num_selected` the kernel
writes `fpr[gid] = (1 + unique_index[gid] - tp) / neg_cnt` and then
overwrites `tpr[gid] = tp / pos_cnt`, where `tp` is the value read from
`tpr[gid]` before the overwrite.  The divisions are the unguarded
single-precision divisions of the kernel, modelled in `FVal` so that a
zero denominator produces NaN/∞ as in IEEE.  Returns `(tpr, fpr)`. -/
def create_fpr (tpr0 : List ℚ) (uidx : List ℕ) (num_total : ℕ) :
    List FVal × List FVal :=
  let pos_cnt : ℚ := tpr0.getD (tpr0.length - 1) 0
  let neg_cnt : ℚ := (num_total : ℚ) - pos_cnt
  (tpr0.map (fun tp => FVal.fin tp / FVal.fin pos_cnt),
   (tpr0.zip uidx).map (fun p =>
      FVal.fin (1 + (p.2 : ℚ) - p.1) / FVal.fin neg_cnt))

/-- The trapezoid areas summed by `trapz_kernel` for `gid ≥ 1`: each
consecutive pair of points contributes
`(x[gid+1] - x[gid]) * (y[gid] + y[gid+1]) / 2`. -/
def trapzSum : List FVal → List FVal → FVal
  | y0 :: y1 :: ys, x0 :: x1 :: xs =>
      (x1 - x0) * (y0 + y1) / FVal.fin 2 + trapzSum (y1 :: ys) (x1 :: xs)
  | _, _ => FVal.fin 0

/-- `trapz_kernel` (metrics.cu lines 66–86), called with
`num_selected` equal to the length of the rate arrays: for each
`gid < num_selected - 1` add the trapezoid area
`(x[gid+1] - x[gid]) * (y[gid] + y[gid+1]) / 2`, with the extra triangle
`x[0] * y[0] / 2` added on the `gid = 0` iteration; the accumulator
starts at `0.0` (set by `initialize_array` at metrics.cu line 387).  The
grid-stride loop becomes structural recursion on the points
(`trapzSum`); the loop body runs only when there are at least two
points, exactly as `gid < num_selected - 1` demands. -/
def trapz (y x : List FVal) : FVal :=
  match y, x with
  | y0 :: y1 :: ys, x0 :: x1 :: xs =>
      ((x1 - x0) * (y0 + y1) / FVal.fin 2 + x0 * y0 / FVal.fin 2) +
        trapzSum (y1 :: ys) (x1 :: xs)
  | _, _ => FVal.fin 0

/-- Stable insertion of a (prediction, label) pair into a list that is
sorted descending by prediction: the pair goes after every pair whose key
is at least as large. -/
def insertDesc (p : ℚ × ℚ) : List (ℚ × ℚ) → List (ℚ × ℚ)
  | [] => [p]
  | q :: qs => if p.1 ≤ q.1 then q :: insertDesc p qs else p :: q :: qs

/-- `cub::DeviceRadixSort::SortPairsDescending` (metrics.cu lines
360–362): stable descending key-value sort of (prediction, label) pairs,
modelled by stable insertion sort. -/
def sortPairsDescending (l : List (ℚ × ℚ)) : List (ℚ × ℚ) :=
  l.foldr insertDesc []

/-- Sorted (prediction, label) pairs of the finalize pipeline
(`d_pred_sort` / `d_label_sort` after the radix sort). -/
def aucSorted (pred label : List ℚ) : List (ℚ × ℚ) :=
  sortPairsDescending (pred.zip label)

/-- `d_pred_sort` after the sort step of `AUC::finalize_metric`. -/
def aucPredSort (pred label : List ℚ) : List ℚ :=
  (aucSorted pred label).map Prod.fst

/-- `d_label_sort` after the sort step of `AUC::finalize_metric`. -/
def aucLabelSort (pred label : List ℚ) : List ℚ :=
  (aucSorted pred label).map Prod.snd

/-- The flag array `d_flag` computed by `unique_flag_kernel` in
`AUC::finalize_metric`. -/
def aucFlag (pred label : List ℚ) : List ℕ :=
  unique_flag (aucPredSort pred label)

/-- The inclusive prefix sum `d_inc_sum` of the sorted labels. -/
def aucIncSum (pred label : List ℚ) : List ℚ :=
  incSum 0 (aucLabelSort pred label)

/-- The compacted cumulative-positive counts (`tpr()` right after
`cub::DeviceSelect::Flagged`, before `create_fpr_kernel` rescales it). -/
def aucTpr0 (pred label : List ℚ) : List ℚ :=
  selectFlagged (aucIncSum pred label) (aucFlag pred label)

/-- `num_selected`, the value written by `cub::DeviceSelect::Flagged`
through `d_num_selected_out`: the number of flagged positions. -/
def aucNumSelected (pred label : List ℚ) : ℕ :=
  (aucTpr0 pred label).length

/-- The `d_unique_index` array computed by `unique_index_kernel`. -/
def aucUniqueIndex (pred label : List ℚ) : List ℕ :=
  unique_index_model (aucFlag pred label) (aucNumSelected pred label)

/-- `pos_cnt` read by `create_fpr_kernel`: the last compacted
cumulative-positive count (the total number of positives). -/
def aucPosCnt (pred label : List ℚ) : ℚ :=
  (aucTpr0 pred label).getD (aucNumSelected pred label - 1) 0

/-- `neg_cnt` computed by `create_fpr_kernel`: total elements minus total
positives. -/
def aucNegCnt (pred label : List ℚ) : ℚ :=
  (pred.length : ℚ) - aucPosCnt pred label

/-- The two rate arrays produced by `create_fpr_kernel`. -/
def aucRates (pred label : List ℚ) : List FVal × List FVal :=
  create_fpr (aucTpr0 pred label) (aucUniqueIndex pred label) pred.length

/-- The compacted true-positive-rate array (`tpr()` after
`create_fpr_kernel`). -/
def aucTprs (pred label : List ℚ) : List FVal :=
  (aucRates pred label).1

/-- The compacted false-positive-rate array (`fpr()` after
`create_fpr_kernel`). -/
def aucFprs (pred label : List ℚ) : List FVal :=
  (aucRates pred label).2

/-- `AUC::finalize_metric` (metrics.cu lines 349–401), single-process
root path: sort the accumulated (prediction, label) pairs descending,
flag tie-run boundaries, prefix-sum the sorted labels, compact at the
flags, derive the rates and integrate with `trapz_kernel`. -/
def finalize_metric (pred label : List ℚ) : FVal :=
  trapz (aucTprs pred label) (aucFprs pred label)

/-- `AUC::num_active_gpu_and_r` (metrics.cu lines 409–413):
`num_active_gpu = current_batch_size / (batch_size_per_gpu * num_procs)`,
`r = current_batch_size % (batch_size_per_gpu * num_procs)`. -/
def num_active_gpu_and_r (current_batch_size batch_size_per_gpu num_procs : ℕ) :
    ℕ × ℕ :=
  (current_batch_size / (batch_size_per_gpu * num_procs),
   current_batch_size % (batch_size_per_gpu * num_procs))

/-- `AUC::local_reduce` (metrics.cu lines 304–329), write bookkeeping:
returns `some (offset, num_elems)` when the device writes `num_elems`
samples starting at `offset`, and `none` when the device writes nothing.
Following the source, `num_active_gpu` is incremented when `r ≠ 0`, a
device writes iff `device_id < num_active_gpu`, the last active device
writes `r` samples when `r ≠ 0`, and the write offset is
`offset_ + batch_size_per_gpu * device_id`. -/
def local_reduce_write (current_batch_size batch_size_per_gpu num_procs
    offset device_id : ℕ) : Option (ℕ × ℕ) :=
  let ar := num_active_gpu_and_r current_batch_size batch_size_per_gpu num_procs
  let num_active_gpu := if ar.2 ≠ 0 then ar.1 + 1 else ar.1
  if device_id < num_active_gpu then
    some (offset + batch_size_per_gpu * device_id,
      if ar.2 ≠ 0 ∧ device_id = num_active_gpu - 1 then ar.2
      else batch_size_per_gpu)
  else none

/-- `AUC::global_reduce` (metrics.cu lines 331–347), single-process
offset bookkeeping: `offset_ += batch_size_per_gpu * num_active_gpu + r`
with `num_active_gpu` NOT incremented for the remainder. -/
def global_reduce_offset (current_batch_size batch_size_per_gpu num_procs
    offset : ℕ) : ℕ :=
  let ar := num_active_gpu_and_r current_batch_size batch_size_per_gpu num_procs
  offset + (batch_size_per_gpu * ar.1 + ar.2)

/-- State of the `AverageLoss` engine: the per-device slots
`loss_local_`, the running total `loss_global_` and the batch counter
`n_batches_` (metrics.cu lines 171–229). -/
structure AvgLossState where
  loss_local : List ℚ
  loss_global : ℚ
  n_batches : ℕ
deriving DecidableEq, Repr

/-- `AverageLoss::local_reduce` (metrics.cu lines 182–190): store the
device's scalar loss into its slot. -/
def avgLocalReduce (s : AvgLossState) (gpu : ℕ) (loss : ℚ) : AvgLossState :=
  { s with loss_local := s.loss_local.set gpu loss }

/-- `AverageLoss::global_reduce` (metrics.cu lines 192–208),
single-process path: sum the per-device slots, add
`loss_inter / n_nets / num_procs` to the running total and increment the
batch counter. -/
def avgGlobalReduce (num_procs n_nets : ℕ) (s : AvgLossState) : AvgLossState :=
  let loss_inter := s.loss_local.sum
  { s with
      loss_global := s.loss_global + loss_inter / (n_nets : ℚ) / (num_procs : ℚ),
      n_batches := s.n_batches + 1 }

/-- `AverageLoss::finalize_metric` (metrics.cu lines 210–229): on the
root process return `loss_global_ / n_batches_` (0 when no batches), then
reset the running total, every per-device slot and the batch counter. -/
def avgFinalize (pid : ℕ) (s : AvgLossState) : ℚ × AvgLossState :=
  let ret : ℚ :=
    if pid = 0 then (if s.n_batches ≠ 0 then s.loss_global / (s.n_batches : ℚ) else 0)
    else 0
  (ret,
   { loss_local := s.loss_local.map (fun _ => 0), loss_global := 0, n_batches := 0 })

theorem getD_mem_of_lt {α : Type} (l : List α) :
    ∀ (i : ℕ) (d : α), i < l.length → l.getD i d ∈ l := by
  induction l with
  | nil => intro i d h; simp at h
  | cons a t ih =>
      intro i d h
      cases i with
      | zero => simp
      | succ m =>
          simp only [List.getD_cons_succ]
          exact List.mem_cons_of_mem a (ih m d (by simpa using h))

theorem getD_map_of_lt {α β : Type} (f : α → β) (d : β) (e : α) (l : List α) :
    ∀ i, i < l.length → (l.map f).getD i d = f (l.getD i e) := by
  induction l with
  | nil => intro i h; simp at h
  | cons a t ih =>
      intro i h
      cases i with
      | zero => simp
      | succ j =>
          simp only [List.map_cons, List.getD_cons_succ]
          exact ih j (by simpa using h)

theorem flaggedPos_length_le (fs : List ℕ) : (flaggedPos fs).length ≤ fs.length := by
  induction fs with
  | nil => simp [flaggedPos]
  | cons f fs ih =>
      by_cases hf : f = 1 <;> simp [flaggedPos, hf] <;> omega

theorem selectFlagged_eq_map (flags : List ℕ) :
    ∀ vals : List ℚ, vals.length = flags.length →
      selectFlagged vals flags = (flaggedPos flags).map (fun j => vals.getD j 0) := by
  induction flags with
  | nil =>
      intro vals h
      cases vals with
      | nil => simp [selectFlagged, flaggedPos]
      | cons v vs => simp at h
  | cons f fs ih =>
      intro vals h
      cases vals with
      | nil => simp at h
      | cons v vs =>
          have h' : vs.length = fs.length := by simpa using h
          by_cases hf : f = 1 <;>
            simp [selectFlagged, flaggedPos, hf, ih vs h', List.map_map,
              Function.comp_def]

theorem flaggedPos_cons_one (fs : List ℕ) :
    flaggedPos (1 :: fs) = 0 :: (flaggedPos fs).map (fun j => j + 1) := by
  simp [flaggedPos]

theorem flaggedPos_cons_ne (f : ℕ) (fs : List ℕ) (hf : f ≠ 1) :
    flaggedPos (f :: fs) = (flaggedPos fs).map (fun j => j + 1) := by
  simp [flaggedPos, hf]

theorem flaggedPos_lt (fs : List ℕ) : ∀ j ∈ flaggedPos fs, j < fs.length := by
  induction fs with
  | nil => simp [flaggedPos]
  | cons f fs ih =>
      intro j hj
      by_cases hf : f = 1
      · subst hf
        rw [flaggedPos_cons_one] at hj
        rcases List.mem_cons.1 hj with rfl | hj
        · simp
        · rcases List.mem_map.1 hj with ⟨a, ha, rfl⟩
          have := ih a ha
          simp only [List.length_cons]
          omega
      · rw [flaggedPos_cons_ne f fs hf] at hj
        rcases List.mem_map.1 hj with ⟨a, ha, rfl⟩
        have := ih a ha
        simp only [List.length_cons]
        omega

theorem flaggedPos_chain (fs : List ℕ) :
    List.Chain' (fun a b => a < b) (flaggedPos fs) := by
  induction fs with
  | nil => simp [flaggedPos]
  | cons f fs ih =>
      have hm : List.Chain' (fun a b => a < b) ((flaggedPos fs).map (fun j => j + 1)) := by
        rw [List.chain'_map]
        exact ih.imp (fun h => by omega)
      by_cases hf : f = 1 <;> simp only [flaggedPos, hf, if_true, if_false, ite_true, ite_false]
      · rw [List.chain'_cons']
        refine ⟨?_, hm⟩
        intro b hb
        rcases List.mem_map.1 (List.mem_of_mem_head? hb) with ⟨a, _, rfl⟩
        omega
      · exact hm

theorem flaggedPos_last (fs : List ℕ) (hne : fs ≠ [])
    (hlast : fs.getD (fs.length - 1) 0 = 1) :
    flaggedPos fs ≠ [] ∧
    (flaggedPos fs).getD ((flaggedPos fs).length - 1) 0 = fs.length - 1 := by
  induction fs with
  | nil => exact absurd rfl hne
  | cons f fs ih =>
      cases fs with
      | nil =>
          have hf : f = 1 := by simpa using hlast
          subst hf
          simp [flaggedPos]
      | cons g t =>
          have hlast' : (g :: t).getD ((g :: t).length - 1) 0 = 1 := by
            simpa [List.getD_cons_succ] using hlast
          obtain ⟨hne', hl'⟩ := ih (by simp) hlast'
          obtain ⟨b, bs, hb⟩ := List.exists_cons_of_ne_nil hne'
          have hmlen : ((flaggedPos (g :: t)).map (fun j => j + 1)).length =
              (flaggedPos (g :: t)).length := by simp
          have hmlast : ((flaggedPos (g :: t)).map (fun j => j + 1)).getD
              (((flaggedPos (g :: t)).map (fun j => j + 1)).length - 1) 0 =
              (g :: t).length - 1 + 1 := by
            rw [hmlen, getD_map_of_lt (fun j => j + 1) 0 0 _ _ (by rw [hb]; simp), hl']
          by_cases hf : f = 1
          · subst hf
            rw [flaggedPos_cons_one]
            constructor
            · simp
            · have hlen2 : (0 :: (flaggedPos (g :: t)).map (fun j => j + 1)).length - 1 =
                (((flaggedPos (g :: t)).map (fun j => j + 1)).length - 1) + 1 := by
                rw [List.length_cons, hmlen, hb]
                simp
              rw [hlen2, List.getD_cons_succ, hmlast]
              simp
          · rw [flaggedPos_cons_ne f (g :: t) hf]
            constructor
            · rw [hb]; simp
            · rw [hmlast]
              simp

theorem uniqueIndexGo_length (fs : List ℕ) :
    ∀ gid cnt buf, (uniqueIndexGo gid cnt fs buf).length = buf.length := by
  induction fs with
  | nil => intro gid cnt buf; rfl
  | cons f fs ih =>
      intro gid cnt buf
      show (uniqueIndexGo (gid + 1) (cnt + f) fs _).length = _
      rw [ih]
      by_cases hf : f = 1 <;> simp [hf]

theorem take_set_succ {α : Type} (l : List α) :
    ∀ (n : ℕ) (a : α), n < l.length → (l.set n a).take (n + 1) = l.take n ++ [a] := by
  induction l with
  | nil => intro n a h; simp at h
  | cons x t ih =>
      intro n a h
      cases n with
      | zero => simp
      | succ m =>
          simp only [List.set_cons_succ, List.take_succ_cons, List.cons_append]
          rw [ih m a (by simpa using h)]

theorem uniqueIndexGo_spec (fs : List ℕ) :
    ∀ gid cnt (buf : List ℕ), (∀ f ∈ fs, f = 0 ∨ f = 1) →
      buf.length = cnt + (flaggedPos fs).length →
      uniqueIndexGo gid cnt fs buf =
        buf.take cnt ++ (flaggedPos fs).map (fun j => j + gid) := by
  induction fs with
  | nil =>
      intro gid cnt buf _ hlen
      show buf = buf.take cnt ++ (flaggedPos []).map (fun j => j + gid)
      have : buf.take cnt = buf := List.take_of_length_le (by simp [flaggedPos] at hlen; omega)
      simp [flaggedPos, this]
  | cons f fs ih =>
      intro gid cnt buf hf hlen
      rcases hf f (by simp) with h0 | h1
      · subst h0
        show uniqueIndexGo (gid + 1) (cnt + 0) fs
            (if (0 : ℕ) = 1 then buf.set (cnt + 0 - 1) gid else buf) = _
        rw [if_neg (by omega)]
        simp only [Nat.add_zero]
        rw [ih (gid + 1) cnt buf (fun x hx => hf x (by simp [hx]))
            (by rw [hlen, flaggedPos_cons_ne 0 fs (by omega)]; simp),
          flaggedPos_cons_ne 0 fs (by omega), List.map_map]
        have harith : ((fun j => j + gid) ∘ fun j => j + 1) = (fun j => j + (gid + 1)) := by
          funext j
          simp [Function.comp]
          omega
        rw [harith]
      · subst h1
        have hlen1 : buf.length = (cnt + 1) + (flaggedPos fs).length := by
          rw [hlen, flaggedPos_cons_one]
          simp
          omega
        have hcnt : cnt < buf.length := by omega
        show uniqueIndexGo (gid + 1) (cnt + 1) fs
            (if (1 : ℕ) = 1 then buf.set (cnt + 1 - 1) gid else buf) = _
        rw [if_pos rfl, Nat.add_sub_cancel,
          ih (gid + 1) (cnt + 1) (buf.set cnt gid) (fun x hx => hf x (by simp [hx]))
            (by rw [List.length_set]; exact hlen1),
          take_set_succ buf cnt gid hcnt, flaggedPos_cons_one, List.map_cons,
          List.map_map]
        have harith : ((fun j => j + gid) ∘ fun j => j + 1) = (fun j => j + (gid + 1)) := by
          funext j
          simp [Function.comp]
          omega
        rw [harith]
        simp

theorem unique_index_model_eq (flags : List ℕ)
    (hf : ∀ f ∈ flags, f = 0 ∨ f = 1) :
    unique_index_model flags (flaggedPos flags).length = flaggedPos flags := by
  show uniqueIndexGo 0 0 flags (List.replicate (flaggedPos flags).length 0) =
    flaggedPos flags
  rw [uniqueIndexGo_spec flags 0 0 _ hf (by simp)]
  simp

theorem incSum_length (l : List ℚ) : ∀ c, (incSum c l).length = l.length := by
  induction l with
  | nil => intro c; rfl
  | cons x t ih => intro c; simp [incSum, ih]

theorem incSum_getD (l : List ℚ) :
    ∀ (c : ℚ) (j : ℕ), j < l.length →
      (incSum c l).getD j 0 = c + (l.take (j + 1)).sum := by
  induction l with
  | nil => intro c j h; simp at h
  | cons x t ih =>
      intro c j h
      cases j with
      | zero => simp [incSum]
      | succ m =>
          simp only [incSum, List.getD_cons_succ, List.take_succ_cons,
            List.sum_cons]
          rw [ih (c + x) m (by simpa using h)]
          ring

theorem unique_flag_length (l : List ℚ) : (unique_flag l).length = l.length := by
  induction l with
  | nil => rfl
  | cons a t ih =>
      cases t with
      | nil => rfl
      | cons b r => simpa [unique_flag] using ih

theorem unique_flag_mem (l : List ℚ) : ∀ f ∈ unique_flag l, f = 0 ∨ f = 1 := by
  induction l with
  | nil => simp [unique_flag]
  | cons a t ih =>
      cases t with
      | nil => simp [unique_flag]
      | cons b r =>
          intro f hf
          rcases List.mem_cons.1 hf with rfl | hf'
          · by_cases hc : a - b > eps <;> simp [hc]
          · exact ih f hf'

theorem unique_flag_last (l : List ℚ) (hne : l ≠ []) :
    (unique_flag l).getD (l.length - 1) 0 = 1 := by
  induction l with
  | nil => exact absurd rfl hne
  | cons a t ih =>
      cases t with
      | nil => rfl
      | cons b r =>
          have := ih (by simp)
          simpa [unique_flag, List.getD_cons_succ] using this

theorem unique_flag_getD_of_lt (l : List ℚ) :
    ∀ i, i < l.length - 1 →
      (unique_flag l).getD i 0 =
        if l.getD i 0 - l.getD (i + 1) 0 > eps then 1 else 0 := by
  induction l with
  | nil => intro i h; simp at h
  | cons a t ih =>
      cases t with
      | nil => intro i h; simp at h
      | cons b r =>
          intro i h
          cases i with
          | zero => simp [unique_flag]
          | succ m =>
              simp only [unique_flag, List.getD_cons_succ]
              exact ih m (by simp at h ⊢; omega)

theorem insertDesc_length (p : ℚ × ℚ) (l : List (ℚ × ℚ)) :
    (insertDesc p l).length = l.length + 1 := by
  induction l with
  | nil => rfl
  | cons q t ih => by_cases hq : p.1 ≤ q.1 <;> simp [insertDesc, hq, ih]

theorem sortPairsDescending_length (l : List (ℚ × ℚ)) :
    (sortPairsDescending l).length = l.length := by
  induction l with
  | nil => rfl
  | cons p t ih =>
      show (insertDesc p (sortPairsDescending t)).length = t.length + 1
      rw [insertDesc_length, ih]

theorem mem_insertDesc (x p : ℚ × ℚ) (l : List (ℚ × ℚ)) :
    x ∈ insertDesc p l ↔ x = p ∨ x ∈ l := by
  induction l with
  | nil => simp [insertDesc]
  | cons q t ih =>
      by_cases hq : p.1 ≤ q.1
      · simp only [insertDesc, if_pos hq, List.mem_cons, ih]
        tauto
      · simp only [insertDesc, if_neg hq, List.mem_cons]

theorem mem_sortPairsDescending (x : ℚ × ℚ) (l : List (ℚ × ℚ)) :
    x ∈ sortPairsDescending l ↔ x ∈ l := by
  induction l with
  | nil => simp [sortPairsDescending]
  | cons p t ih =>
      show x ∈ insertDesc p (sortPairsDescending t) ↔ _
      rw [mem_insertDesc, ih, List.mem_cons]

theorem aucPredSort_length (pred label : List ℚ) (h : label.length = pred.length) :
    (aucPredSort pred label).length = pred.length := by
  simp [aucPredSort, aucSorted, sortPairsDescending_length, h]

theorem aucLabelSort_length (pred label : List ℚ) (h : label.length = pred.length) :
    (aucLabelSort pred label).length = pred.length := by
  simp [aucLabelSort, aucSorted, sortPairsDescending_length, h]

theorem mem_aucLabelSort (pred label : List ℚ) :
    ∀ y ∈ aucLabelSort pred label, y ∈ label := by
  intro y hy
  rcases List.mem_map.1 hy with ⟨q, hq, rfl⟩
  exact (List.of_mem_zip ((mem_sortPairsDescending q _).1 hq)).2

theorem aucFlag_length (pred label : List ℚ) (h : label.length = pred.length) :
    (aucFlag pred label).length = pred.length := by
  rw [aucFlag, unique_flag_length, aucPredSort_length pred label h]

theorem aucIncSum_length (pred label : List ℚ) (h : label.length = pred.length) :
    (aucIncSum pred label).length = pred.length := by
  rw [aucIncSum, incSum_length, aucLabelSort_length pred label h]

theorem aucTpr0_eq (pred label : List ℚ) (h : label.length = pred.length) :
    aucTpr0 pred label = (flaggedPos (aucFlag pred label)).map
      (fun j => (aucIncSum pred label).getD j 0) := by
  rw [aucTpr0,
    selectFlagged_eq_map (aucFlag pred label) (aucIncSum pred label)
      (by rw [aucIncSum_length pred label h, aucFlag_length pred label h])]

theorem aucNumSelected_eq (pred label : List ℚ) (h : label.length = pred.length) :
    aucNumSelected pred label = (flaggedPos (aucFlag pred label)).length := by
  rw [aucNumSelected, aucTpr0_eq pred label h, List.length_map]

theorem aucUniqueIndex_eq (pred label : List ℚ) (h : label.length = pred.length) :
    aucUniqueIndex pred label = flaggedPos (aucFlag pred label) := by
  rw [aucUniqueIndex, aucNumSelected_eq pred label h]
  exact unique_index_model_eq _ (by rw [aucFlag]; exact unique_flag_mem _)

theorem aucUniqueIndex_length (pred label : List ℚ) :
    (aucUniqueIndex pred label).length = aucNumSelected pred label := by
  rw [aucUniqueIndex]
  show (uniqueIndexGo 0 0 _ _).length = _
  rw [uniqueIndexGo_length, List.length_replicate]

theorem aucTprs_eq (pred label : List ℚ) :
    aucTprs pred label = (aucTpr0 pred label).map
      (fun tp => FVal.fin tp / FVal.fin (aucPosCnt pred label)) := rfl

theorem aucFprs_eq (pred label : List ℚ) :
    aucFprs pred label =
      ((aucTpr0 pred label).zip (aucUniqueIndex pred label)).map
        (fun p => FVal.fin (1 + (p.2 : ℚ) - p.1) /
          FVal.fin (aucNegCnt pred label)) := rfl

theorem aucTprs_length (pred label : List ℚ) :
    (aucTprs pred label).length = aucNumSelected pred label := by
  rw [aucTprs_eq, List.length_map, aucNumSelected]

theorem aucFprs_length (pred label : List ℚ) :
    (aucFprs pred label).length = aucNumSelected pred label := by
  rw [aucFprs_eq, List.length_map, List.length_zip, aucUniqueIndex_length,
    aucNumSelected, Nat.min_self]

theorem getD_zip {α β : Type} (l1 : List α) :
    ∀ (l2 : List β) (d1 : α) (d2 : β) (i : ℕ), i < l1.length → i < l2.length →
      (l1.zip l2).getD i (d1, d2) = (l1.getD i d1, l2.getD i d2) := by
  induction l1 with
  | nil => intro l2 d1 d2 i h1 h2; simp at h1
  | cons a t ih =>
      intro l2 d1 d2 i h1 h2
      cases l2 with
      | nil => simp at h2
      | cons b r =>
          cases i with
          | zero => simp
          | succ m =>
              simp only [List.zip_cons_cons, List.getD_cons_succ]
              exact ih r d1 d2 m (by simpa using h1) (by simpa using h2)

/-- C1: for predictions `[0.9, 0.8, 0.7, 0.6]` with labels `[1, 0, 1, 0]`
(already sorted descending, no ties), the finalize pipeline produces
compacted TPR `[0.5, 0.5, 1.0, 1.0]`, compacted FPR `[0, 0.5, 0.5, 1.0]`,
and trapezoidal AUC `0.75`. -/
theorem C1_small_example :
    aucTprs [9/10, 8/10, 7/10, 6/10] [1, 0, 1, 0] =
      [FVal.fin (1/2), FVal.fin (1/2), FVal.fin 1, FVal.fin 1] ∧
    aucFprs [9/10, 8/10, 7/10, 6/10] [1, 0, 1, 0] =
      [FVal.fin 0, FVal.fin (1/2), FVal.fin (1/2), FVal.fin 1] ∧
    finalize_metric [9/10, 8/10, 7/10, 6/10] [1, 0, 1, 0] = FVal.fin (3/4) := by
  have hflag : aucFlag [9/10, 8/10, 7/10, 6/10] [1, 0, 1, 0] = [1, 1, 1, 1] := by
    rw [aucFlag, aucPredSort, aucSorted]
    norm_num [sortPairsDescending, insertDesc, unique_flag, eps]
  have htpr0 : aucTpr0 [9/10, 8/10, 7/10, 6/10] [1, 0, 1, 0] = [1, 1, 2, 2] := by
    rw [aucTpr0, hflag, aucIncSum, aucLabelSort, aucSorted]
    norm_num [sortPairsDescending, insertDesc, incSum, selectFlagged]
  have hn : aucNumSelected [9/10, 8/10, 7/10, 6/10] [1, 0, 1, 0] = 4 := by
    rw [aucNumSelected, htpr0]
    rfl
  have hu : aucUniqueIndex [9/10, 8/10, 7/10, 6/10] [1, 0, 1, 0] = [0, 1, 2, 3] := by
    rw [aucUniqueIndex, hflag, hn]
    rfl
  have hrates : aucRates [9/10, 8/10, 7/10, 6/10] [1, 0, 1, 0] =
      create_fpr [1, 1, 2, 2] [0, 1, 2, 3] 4 := by
    rw [aucRates, htpr0, hu]
    rfl
  have htpr : aucTprs [9/10, 8/10, 7/10, 6/10] [1, 0, 1, 0] =
      [FVal.fin (1/2), FVal.fin (1/2), FVal.fin 1, FVal.fin 1] := by
    rw [aucTprs, hrates]
    norm_num [create_fpr, FVal.fin_div_fin]
  have hfpr : aucFprs [9/10, 8/10, 7/10, 6/10] [1, 0, 1, 0] =
      [FVal.fin 0, FVal.fin (1/2), FVal.fin (1/2), FVal.fin 1] := by
    rw [aucFprs, hrates]
    norm_num [create_fpr, FVal.fin_div_fin]
  refine ⟨htpr, hfpr, ?_⟩
  rw [finalize_metric, htpr, hfpr]
  norm_num [trapz, trapzSum, FVal.fin_div_fin]

/-- C5: on any batch, with `a = cur / (b*p)` and `r = cur % (b*p)`, every
device index below `a` writes exactly `b` samples at
`offset + b * device_id`, the device with index `a` writes exactly `r`
samples when `r > 0`, every higher device index writes nothing, and the
subsequent reduce advances the offset by exactly `b * a + r`. -/
theorem C5_partial_batch (cur b p off id : ℕ) :
    (id < cur / (b * p) →
      local_reduce_write cur b p off id = some (off + b * id, b)) ∧
    (cur % (b * p) ≠ 0 → id = cur / (b * p) →
      local_reduce_write cur b p off id = some (off + b * id, cur % (b * p))) ∧
    (cur / (b * p) < id → local_reduce_write cur b p off id = none) ∧
    global_reduce_offset cur b p off =
      off + (b * (cur / (b * p)) + cur % (b * p)) := by
  refine ⟨?_, ?_, ?_, rfl⟩
  · intro h
    simp only [local_reduce_write, num_active_gpu_and_r]
    generalize cur / (b * p) = a at h ⊢
    generalize cur % (b * p) = r
    split_ifs with h1 h2 <;> first | rfl | omega
  · intro hr hid
    simp only [local_reduce_write, num_active_gpu_and_r]
    generalize hA : cur / (b * p) = a at hid ⊢
    generalize hR : cur % (b * p) = r at hr ⊢
    subst hid
    split_ifs with h1 h2 <;> first | rfl | omega
  · intro h
    simp only [local_reduce_write, num_active_gpu_and_r]
    generalize cur / (b * p) = a at h ⊢
    generalize cur % (b * p) = r
    split_ifs with h1 h2 <;> first | rfl | omega

/-- C5 witness: `cur = 5`, `b = 2`, `p = 1`, `off = 10` gives `a = 2`,
`r = 1`: device 1 writes 2 samples at 12, device 2 writes 1 sample at 14,
device 3 writes nothing, and the offset advances to 15. -/
theorem C5_partial_batch_witness :
    local_reduce_write 5 2 1 10 1 = some (12, 2) ∧
    local_reduce_write 5 2 1 10 2 = some (14, 1) ∧
    local_reduce_write 5 2 1 10 3 = none ∧
    global_reduce_offset 5 2 1 10 = 15 :=
  ⟨(C5_partial_batch 5 2 1 10 1).1 (by decide),
   (C5_partial_batch 5 2 1 10 2).2.1 (by decide) (by decide),
   (C5_partial_batch 5 2 1 10 3).2.2.1 (by decide),
   (C5_partial_batch 5 2 1 10 0).2.2.2⟩

/-- C9: per-device losses `[1, 2, 3]` with `numReplicas = 3` in a single
process: one `global_reduce` followed by `finalize_metric` returns 2,
finalize resets the running total, the per-device slots and the batch
counter, and a second finalize with no intervening reduce returns 0. -/
theorem C9_average_loss :
    (avgFinalize 0 (avgGlobalReduce 1 3
        (avgLocalReduce (avgLocalReduce (avgLocalReduce
          ⟨[0, 0, 0], 0, 0⟩ 0 1) 1 2) 2 3))).1 = 2 ∧
    (avgFinalize 0 (avgGlobalReduce 1 3
        (avgLocalReduce (avgLocalReduce (avgLocalReduce
          ⟨[0, 0, 0], 0, 0⟩ 0 1) 1 2) 2 3))).2 =
      ⟨[0, 0, 0], 0, 0⟩ ∧
    (avgFinalize 0 ((avgFinalize 0 (avgGlobalReduce 1 3
        (avgLocalReduce (avgLocalReduce (avgLocalReduce
          ⟨[0, 0, 0], 0, 0⟩ 0 1) 1 2) 2 3))).2)).1 = 0 := by
  have hs : avgLocalReduce (avgLocalReduce (avgLocalReduce
      (⟨[0, 0, 0], 0, 0⟩ : AvgLossState) 0 1) 1 2) 2 3 =
      ⟨[1, 2, 3], 0, 0⟩ := rfl
  rw [hs]
  have hg : avgGlobalReduce 1 3 ⟨[1, 2, 3], 0, 0⟩ =
      ⟨[1, 2, 3], 2, 1⟩ := by
    simp only [avgGlobalReduce, AvgLossState.mk.injEq]
    norm_num
  rw [hg]
  have hf : avgFinalize 0 ⟨[1, 2, 3], 2, 1⟩ = (2, ⟨[0, 0, 0], 0, 0⟩) := by
    simp only [avgFinalize, AvgLossState.mk.injEq, List.map_cons, List.map_nil]
    norm_num
  rw [hf]
  refine ⟨rfl, rfl, ?_⟩
  simp [avgFinalize]

/-- C6 counterexample: for predictions `[0.5, 0.5]` with labels `[1, 1]`
(all labels 1, so zero negatives), the unguarded rate division does
produce NaN in the FPR array, but with a single compacted point the
integration loop body never runs, so the final AUC is the finite value 0
— the NaN does not propagate into the final scalar. -/
theorem C6_counterexample :
    aucFprs [1/2, 1/2] [1, 1] = [FVal.nan] ∧
    finalize_metric [1/2, 1/2] [1, 1] = FVal.fin 0 ∧
    (finalize_metric [1/2, 1/2] [1, 1]).isFinite = true := by
  have hflag : aucFlag [1/2, 1/2] [1, 1] = [0, 1] := by
    rw [aucFlag, aucPredSort, aucSorted]
    norm_num [sortPairsDescending, insertDesc, unique_flag, eps]
  have htpr0 : aucTpr0 [1/2, 1/2] [1, 1] = [2] := by
    rw [aucTpr0, hflag, aucIncSum, aucLabelSort, aucSorted]
    norm_num [sortPairsDescending, insertDesc, incSum, selectFlagged]
  have hn : aucNumSelected [1/2, 1/2] [1, 1] = 1 := by
    rw [aucNumSelected, htpr0]
    rfl
  have hu : aucUniqueIndex [1/2, 1/2] [1, 1] = [1] := by
    rw [aucUniqueIndex, hflag, hn]
    rfl
  have hrates : aucRates [1/2, 1/2] [1, 1] = create_fpr [2] [1] 2 := by
    rw [aucRates, htpr0, hu]
    rfl
  have hfpr : aucFprs [1/2, 1/2] [1, 1] = [FVal.nan] := by
    rw [aucFprs, hrates]
    norm_num [create_fpr]
  have htpr : aucTprs [1/2, 1/2] [1, 1] = [FVal.fin 1] := by
    rw [aucTprs, hrates]
    norm_num [create_fpr, FVal.fin_div_fin]
  refine ⟨hfpr, ?_, ?_⟩ <;> rw [finalize_metric, htpr, hfpr] <;> rfl

/-- C3: for a descending-sorted prediction array of length at least 1, the
flag array sets position `i < n - 1` to 1 exactly when
`predictions[i] - predictions[i+1] > 1e-32`, sets every other position of
a tie run to 0, and always sets position `n - 1` to 1, even when it ties
with its predecessor. -/
theorem C3_unique_flag (data : List ℚ) (hn : 1 ≤ data.length)
    (_hsorted : List.Chain' (fun a b => b ≤ a) data) :
    (∀ i, i < data.length - 1 →
      (unique_flag data).getD i 0 =
        if data.getD i 0 - data.getD (i + 1) 0 > eps then 1 else 0) ∧
    (unique_flag data).getD (data.length - 1) 0 = 1 ∧
    (unique_flag data).length = data.length :=
  ⟨unique_flag_getD_of_lt data,
   unique_flag_last data (by intro h; rw [h] at hn; simp at hn),
   unique_flag_length data⟩

/-- C3 witness: on the sorted array `[0.9, 0.8, 0.8]` the flags are
`1, 0, 1` — the tied middle position is unflagged and the final position
is flagged despite tying with its predecessor. -/
theorem C3_unique_flag_witness :
    (unique_flag [9/10, 8/10, 8/10]).getD 0 0 = 1 ∧
    (unique_flag [9/10, 8/10, 8/10]).getD 1 0 = 0 ∧
    (unique_flag [9/10, 8/10, 8/10]).getD 2 0 = 1 := by
  have h := C3_unique_flag [9/10, 8/10, 8/10] (by norm_num)
    (by simp [List.chain'_cons]; norm_num)
  exact ⟨(h.1 0 (by norm_num)).trans (by norm_num [eps]),
    (h.1 1 (by norm_num)).trans (by norm_num [eps]),
    h.2.1⟩

/-- C2: for every compacted point `i`, with `totalPositives` the last
value of the compacted cumulative-positive sequence (`aucPosCnt`) and
`totalNegatives = total - totalPositives` (`aucNegCnt`), the rates are
`tpr[i] = cumulativePositives[i] / totalPositives` and
`fpr[i] = (1 + originalRank[i] - cumulativePositives[i]) / totalNegatives`,
where `originalRank[i] = unique_index[i]` is the 0-based sorted-array
index of the last element of the `i`-th tie run and
`cumulativePositives[i]` is the inclusive label prefix sum read at that
index. -/
theorem C2_rate_formulas (pred label : List ℚ)
    (hlen : label.length = pred.length)
    (i : ℕ) (hi : i < aucNumSelected pred label)
    (hpos : aucPosCnt pred label ≠ 0) (hneg : aucNegCnt pred label ≠ 0) :
    (aucTprs pred label).getD i (FVal.fin 0) =
      FVal.fin ((aucIncSum pred label).getD
        ((aucUniqueIndex pred label).getD i 0) 0 / aucPosCnt pred label) ∧
    (aucFprs pred label).getD i (FVal.fin 0) =
      FVal.fin ((1 + ((aucUniqueIndex pred label).getD i 0 : ℚ) -
          (aucIncSum pred label).getD ((aucUniqueIndex pred label).getD i 0) 0) /
        aucNegCnt pred label) := by
  have hu := aucUniqueIndex_eq pred label hlen
  have hkfp : i < (flaggedPos (aucFlag pred label)).length := by
    rw [← aucNumSelected_eq pred label hlen]
    exact hi
  have hik : i < (aucTpr0 pred label).length := hi
  have htpr0_getD : (aucTpr0 pred label).getD i 0 =
      (aucIncSum pred label).getD ((aucUniqueIndex pred label).getD i 0) 0 := by
    rw [aucTpr0_eq pred label hlen, hu,
      getD_map_of_lt (fun j => (aucIncSum pred label).getD j 0) 0 0 _ i hkfp]
  constructor
  · rw [aucTprs_eq,
      getD_map_of_lt (fun tp => FVal.fin tp / FVal.fin (aucPosCnt pred label))
        (FVal.fin 0) 0 _ i hik,
      htpr0_getD, FVal.fin_div_fin _ hpos]
  · have hiu : i < (aucUniqueIndex pred label).length := by
      rw [aucUniqueIndex_length]
      exact hi
    have hzip : i < ((aucTpr0 pred label).zip (aucUniqueIndex pred label)).length := by
      rw [List.length_zip]
      exact lt_min hik hiu
    rw [aucFprs_eq,
      getD_map_of_lt (fun p => FVal.fin (1 + (p.2 : ℚ) - p.1) /
        FVal.fin (aucNegCnt pred label)) (FVal.fin 0) (0, 0) _ i hzip,
      getD_zip _ _ 0 0 i hik hiu, htpr0_getD, FVal.fin_div_fin _ hneg]

/-- C2 witness: on predictions `[1, 0]` with labels `[1, 0]` (one
positive, one negative) the rate formulas hold at compacted point 0. -/
theorem C2_rate_formulas_witness :
    (aucTprs [1, 0] [1, 0]).getD 0 (FVal.fin 0) =
      FVal.fin ((aucIncSum [1, 0] [1, 0]).getD
        ((aucUniqueIndex [1, 0] [1, 0]).getD 0 0) 0 / aucPosCnt [1, 0] [1, 0]) ∧
    (aucFprs [1, 0] [1, 0]).getD 0 (FVal.fin 0) =
      FVal.fin ((1 + ((aucUniqueIndex [1, 0] [1, 0]).getD 0 0 : ℚ) -
          (aucIncSum [1, 0] [1, 0]).getD ((aucUniqueIndex [1, 0] [1, 0]).getD 0 0) 0) /
        aucNegCnt [1, 0] [1, 0]) := by
  have hflag : aucFlag [1, 0] [1, 0] = [1, 1] := by
    rw [aucFlag, aucPredSort, aucSorted]
    norm_num [sortPairsDescending, insertDesc, unique_flag, eps]
  have htpr0 : aucTpr0 [1, 0] [1, 0] = [1, 1] := by
    rw [aucTpr0, hflag, aucIncSum, aucLabelSort, aucSorted]
    norm_num [sortPairsDescending, insertDesc, incSum, selectFlagged]
  have hn : aucNumSelected [1, 0] [1, 0] = 2 := by
    rw [aucNumSelected, htpr0]
    rfl
  have hpos : aucPosCnt [1, 0] [1, 0] ≠ 0 := by
    rw [aucPosCnt, htpr0, hn]
    norm_num
  have hneg : aucNegCnt [1, 0] [1, 0] ≠ 0 := by
    rw [aucNegCnt, aucPosCnt, htpr0, hn]
    norm_num
  exact C2_rate_formulas [1, 0] [1, 0] (by norm_num) 0 (by rw [hn]; norm_num)
    hpos hneg

/-- C10: for a non-empty input, the last flag is always 1, so
`1 ≤ num_selected ≤ num_elems`; the compacted arrays all have length
`num_selected` (so the `tpr[num_selected-1]` read and the accesses in
`trapz_kernel` are in bounds), the last compacted point has original rank
`num_elems - 1`, and when both totals are nonzero the last compacted
point is exactly `(FPR, TPR) = (1, 1)`. -/
theorem C10_bounds (pred label : List ℚ) (hlen : label.length = pred.length)
    (hn : 1 ≤ pred.length) :
    (aucFlag pred label).getD (pred.length - 1) 0 = 1 ∧
    1 ≤ aucNumSelected pred label ∧
    aucNumSelected pred label ≤ pred.length ∧
    aucNumSelected pred label - 1 < (aucTpr0 pred label).length ∧
    (aucTprs pred label).length = aucNumSelected pred label ∧
    (aucFprs pred label).length = aucNumSelected pred label ∧
    (aucUniqueIndex pred label).getD (aucNumSelected pred label - 1) 0 =
      pred.length - 1 ∧
    (aucPosCnt pred label ≠ 0 → aucNegCnt pred label ≠ 0 →
      (aucTprs pred label).getD (aucNumSelected pred label - 1) (FVal.fin 0) =
        FVal.fin 1 ∧
      (aucFprs pred label).getD (aucNumSelected pred label - 1) (FVal.fin 0) =
        FVal.fin 1) := by
  have hflaglen : (aucFlag pred label).length = pred.length :=
    aucFlag_length pred label hlen
  have hflagne : aucFlag pred label ≠ [] := by
    intro h
    rw [h] at hflaglen
    simp at hflaglen
    omega
  have hflaglast : (aucFlag pred label).getD (pred.length - 1) 0 = 1 := by
    have hps : aucPredSort pred label ≠ [] := by
      intro h
      have hpl := aucPredSort_length pred label hlen
      rw [h] at hpl
      simp at hpl
      omega
    have h1 := unique_flag_last (aucPredSort pred label) hps
    rw [aucPredSort_length pred label hlen] at h1
    rw [aucFlag]
    exact h1
  have hfp := flaggedPos_last (aucFlag pred label) hflagne
    (by rwa [hflaglen])
  have hkeq := aucNumSelected_eq pred label hlen
  have hueq := aucUniqueIndex_eq pred label hlen
  have hk1 : 1 ≤ aucNumSelected pred label := by
    rw [hkeq]
    have := hfp.1
    cases h : flaggedPos (aucFlag pred label) with
    | nil => exact absurd h this
    | cons a t => simp
  have hkn : aucNumSelected pred label ≤ pred.length := by
    rw [hkeq, ← hflaglen]
    exact flaggedPos_length_le _
  have hulast : (aucUniqueIndex pred label).getD
      (aucNumSelected pred label - 1) 0 = pred.length - 1 := by
    rw [hueq, hkeq, hfp.2, hflaglen]
  have hik : aucNumSelected pred label - 1 < (aucTpr0 pred label).length := by
    show _ < aucNumSelected pred label
    omega
  refine ⟨hflaglast, hk1, hkn, hik, aucTprs_length pred label,
    aucFprs_length pred label, hulast, ?_⟩
  intro hpos hneg
  constructor
  · rw [aucTprs_eq,
      getD_map_of_lt (fun tp => FVal.fin tp / FVal.fin (aucPosCnt pred label))
        (FVal.fin 0) 0 _ _ hik]
    have : (aucTpr0 pred label).getD (aucNumSelected pred label - 1) 0 =
        aucPosCnt pred label := rfl
    rw [this, FVal.fin_div_fin _ hpos, div_self hpos]
  · have hiu : aucNumSelected pred label - 1 < (aucUniqueIndex pred label).length := by
      rw [aucUniqueIndex_length]
      omega
    have hzip : aucNumSelected pred label - 1 <
        ((aucTpr0 pred label).zip (aucUniqueIndex pred label)).length := by
      rw [List.length_zip]
      exact lt_min hik hiu
    rw [aucFprs_eq,
      getD_map_of_lt (fun p => FVal.fin (1 + (p.2 : ℚ) - p.1) /
        FVal.fin (aucNegCnt pred label)) (FVal.fin 0) (0, 0) _ _ hzip,
      getD_zip _ _ 0 0 _ hik hiu, hulast]
    have hpc : (aucTpr0 pred label).getD (aucNumSelected pred label - 1) 0 =
        aucPosCnt pred label := rfl
    rw [hpc, FVal.fin_div_fin _ hneg]
    have hnum : 1 + ((pred.length - 1 : ℕ) : ℚ) - aucPosCnt pred label =
        aucNegCnt pred label := by
      rw [aucNegCnt, Nat.cast_sub hn]
      push_cast
      ring
    rw [hnum, div_self hneg]

/-- C10 witness: on predictions `[1, 0]` with labels `[1, 0]`, the number
of compacted points is 2 of 2 elements, the last original rank is 1, and
the last compacted point is `(1, 1)`. -/
theorem C10_bounds_witness :
    1 ≤ aucNumSelected [1, 0] [1, 0] ∧
    aucNumSelected [1, 0] [1, 0] ≤ 2 ∧
    (aucUniqueIndex [1, 0] [1, 0]).getD (aucNumSelected [1, 0] [1, 0] - 1) 0 = 1 ∧
    (aucPosCnt [1, 0] [1, 0] ≠ 0 → aucNegCnt [1, 0] [1, 0] ≠ 0 →
      (aucTprs [1, 0] [1, 0]).getD (aucNumSelected [1, 0] [1, 0] - 1) (FVal.fin 0) =
        FVal.fin 1 ∧
      (aucFprs [1, 0] [1, 0]).getD (aucNumSelected [1, 0] [1, 0] - 1) (FVal.fin 0) =
        FVal.fin 1) := by
  have h := C10_bounds [1, 0] [1, 0] (by norm_num) (by norm_num)
  exact ⟨h.2.1, h.2.2.1, h.2.2.2.2.2.2.1, h.2.2.2.2.2.2.2⟩

theorem getD_map_fin (l : List ℚ) (i : ℕ) :
    (l.map FVal.fin).getD i (FVal.fin 0) = FVal.fin (l.getD i 0) := by
  by_cases h : i < l.length
  · exact getD_map_of_lt FVal.fin (FVal.fin 0) 0 l i h
  · rw [List.getD_eq_default _ _ (by simpa using le_of_not_lt h),
      List.getD_eq_default _ _ (le_of_not_lt h)]

theorem trapzSum_fin (ys : List ℚ) :
    ∀ xs : List ℚ, ys.length = xs.length →
      trapzSum (ys.map FVal.fin) (xs.map FVal.fin) =
        FVal.fin (∑ i in Finset.range (xs.length - 1),
          (xs.getD (i + 1) 0 - xs.getD i 0) *
            (ys.getD i 0 + ys.getD (i + 1) 0) / 2) := by
  induction ys with
  | nil =>
      intro xs h
      have : xs = [] := List.eq_nil_of_length_eq_zero h.symm
      subst this
      simp [trapzSum]
  | cons y0 yt ih =>
      intro xs h
      cases xs with
      | nil => simp at h
      | cons x0 xt =>
          cases yt with
          | nil =>
              have : xt = [] := List.eq_nil_of_length_eq_zero (by simpa using h.symm)
              subst this
              simp [trapzSum]
          | cons y1 ys2 =>
              cases xt with
              | nil => simp at h
              | cons x1 xs2 =>
                  have h' : (y1 :: ys2).length = (x1 :: xs2).length := by
                    simpa using h
                  have hrec := ih (x1 :: xs2) h'
                  show (FVal.fin x1 - FVal.fin x0) * (FVal.fin y0 + FVal.fin y1) /
                      FVal.fin 2 + trapzSum ((y1 :: ys2).map FVal.fin)
                        ((x1 :: xs2).map FVal.fin) = _
                  rw [hrec, FVal.fin_sub_fin, FVal.fin_add_fin, FVal.fin_mul_fin,
                    FVal.fin_div_fin _ (by norm_num : (2:ℚ) ≠ 0), FVal.fin_add_fin]
                  have hlen2 : (x0 :: x1 :: xs2).length - 1 = ((x1 :: xs2).length - 1) + 1 := by
                    simp
                  rw [hlen2, Finset.sum_range_succ']
                  have hterms : ∀ i, ((x0 :: x1 :: xs2).getD (i + 1 + 1) 0 -
                        (x0 :: x1 :: xs2).getD (i + 1) 0) *
                      ((y0 :: y1 :: ys2).getD (i + 1) 0 +
                        (y0 :: y1 :: ys2).getD (i + 1 + 1) 0) / 2 =
                      ((x1 :: xs2).getD (i + 1) 0 - (x1 :: xs2).getD i 0) *
                      ((y1 :: ys2).getD i 0 + (y1 :: ys2).getD (i + 1) 0) / 2 := by
                    intro i
                    simp [List.getD_cons_succ]
                  rw [Finset.sum_congr rfl (fun i _ => hterms i)]
                  generalize (∑ i in Finset.range ((x1 :: xs2).length - 1),
                    ((x1 :: xs2).getD (i + 1) 0 - (x1 :: xs2).getD i 0) *
                      ((y1 :: ys2).getD i 0 + (y1 :: ys2).getD (i + 1) 0) / 2) = S
                  simp only [List.getD_cons_succ, List.getD_cons_zero]
                  congr 1
                  ring

/-- C4: the trapezoid stage equals the trapezoidal-rule sum over
consecutive points, `∑ (x[i+1] - x[i]) * (y[i] + y[i+1]) / 2`, plus the
extra triangular term `x[0] * y[0] / 2` added exactly once for the first
segment (modeling the ROC curve as starting at the origin). -/
theorem C4_trapezoidal (xs ys : List ℚ) (hlen : ys.length = xs.length)
    (h2 : 2 ≤ xs.length) :
    trapz (ys.map FVal.fin) (xs.map FVal.fin) =
      FVal.fin ((∑ i in Finset.range (xs.length - 1),
        (xs.getD (i + 1) 0 - xs.getD i 0) * (ys.getD i 0 + ys.getD (i + 1) 0) / 2)
        + xs.getD 0 0 * ys.getD 0 0 / 2) := by
  obtain ⟨x0, x1, xs2, rfl⟩ : ∃ a b t, xs = a :: b :: t := by
    cases xs with
    | nil => simp at h2
    | cons a t =>
        cases t with
        | nil => simp at h2
        | cons b r => exact ⟨a, b, r, rfl⟩
  obtain ⟨y0, y1, ys2, rfl⟩ : ∃ a b t, ys = a :: b :: t := by
    cases ys with
    | nil => simp at hlen
    | cons a t =>
        cases t with
        | nil => simp at hlen
        | cons b r => exact ⟨a, b, r, rfl⟩
  have h' : (y1 :: ys2).length = (x1 :: xs2).length := by simpa using hlen
  show ((FVal.fin x1 - FVal.fin x0) * (FVal.fin y0 + FVal.fin y1) / FVal.fin 2 +
      FVal.fin x0 * FVal.fin y0 / FVal.fin 2) +
      trapzSum ((y1 :: ys2).map FVal.fin) ((x1 :: xs2).map FVal.fin) = _
  rw [trapzSum_fin (y1 :: ys2) (x1 :: xs2) h', FVal.fin_sub_fin, FVal.fin_add_fin,
    FVal.fin_mul_fin, FVal.fin_div_fin _ (by norm_num : (2:ℚ) ≠ 0),
    FVal.fin_mul_fin, FVal.fin_div_fin _ (by norm_num : (2:ℚ) ≠ 0),
    FVal.fin_add_fin, FVal.fin_add_fin]
  have hlen2 : (x0 :: x1 :: xs2).length - 1 = ((x1 :: xs2).length - 1) + 1 := by
    simp
  rw [hlen2, Finset.sum_range_succ']
  have hterms : ∀ i, ((x0 :: x1 :: xs2).getD (i + 1 + 1) 0 -
        (x0 :: x1 :: xs2).getD (i + 1) 0) *
      ((y0 :: y1 :: ys2).getD (i + 1) 0 +
        (y0 :: y1 :: ys2).getD (i + 1 + 1) 0) / 2 =
      ((x1 :: xs2).getD (i + 1) 0 - (x1 :: xs2).getD i 0) *
      ((y1 :: ys2).getD i 0 + (y1 :: ys2).getD (i + 1) 0) / 2 := by
    intro i
    simp [List.getD_cons_succ]
  rw [Finset.sum_congr rfl (fun i _ => hterms i)]
  generalize (∑ i in Finset.range ((x1 :: xs2).length - 1),
    ((x1 :: xs2).getD (i + 1) 0 - (x1 :: xs2).getD i 0) *
      ((y1 :: ys2).getD i 0 + (y1 :: ys2).getD (i + 1) 0) / 2) = S
  simp only [List.getD_cons_succ, List.getD_cons_zero]
  congr 1
  ring

/-- C4 witness: points `(0, 1)` and `(1, 1)` give trapezoid area 1 and
triangle term 0, so the kernel returns 1. -/
theorem C4_trapezoidal_witness :
    trapz ([1, 1].map FVal.fin) ([0, 1].map FVal.fin) = FVal.fin 1 :=
  (C4_trapezoidal [0, 1] [1, 1] (by norm_num) (by norm_num)).trans
    (by norm_num [Finset.sum_range_one])

theorem sum_le_length (m : List ℚ) (h : ∀ y ∈ m, y ≤ 1) :
    m.sum ≤ (m.length : ℚ) := by
  induction m with
  | nil => simp
  | cons a t ih =>
      simp only [List.sum_cons, List.length_cons]
      push_cast
      have ha := h a (by simp)
      have ht := ih (fun y hy => h y (by simp [hy]))
      linarith

theorem sum_of_all_one (m : List ℚ) (h : ∀ y ∈ m, y = 1) :
    m.sum = (m.length : ℚ) := by
  induction m with
  | nil => simp
  | cons a t ih =>
      simp only [List.sum_cons, List.length_cons]
      push_cast
      rw [h a (by simp), ih (fun y hy => h y (by simp [hy]))]
      ring

theorem incSum_getD_nonneg (l : List ℚ) (h0 : ∀ y ∈ l, 0 ≤ y) (j : ℕ) :
    0 ≤ (incSum 0 l).getD j 0 := by
  by_cases hj : j < l.length
  · rw [incSum_getD l 0 j hj]
    have := List.sum_nonneg (fun x hx => h0 x (List.take_subset (j + 1) l hx))
    linarith
  · rw [List.getD_eq_default _ _ (by rw [incSum_length]; omega)]

theorem incSum_getD_le (l : List ℚ) (h1 : ∀ y ∈ l, y ≤ 1) (j : ℕ)
    (hj : j < l.length) : (incSum 0 l).getD j 0 ≤ (j : ℚ) + 1 := by
  rw [incSum_getD l 0 j hj]
  have hs := sum_le_length (l.take (j + 1)) (fun y hy => h1 y (List.take_subset (j + 1) l hy))
  have hlt : ((l.take (j + 1)).length : ℚ) ≤ (j : ℚ) + 1 := by
    rw [List.length_take]
    push_cast
    have : min (j + 1) l.length ≤ j + 1 := min_le_left _ _
    exact_mod_cast le_trans (Nat.cast_le.mpr this) (by push_cast; linarith)
  linarith

theorem incSum_getD_all_zero (l : List ℚ) (h : ∀ y ∈ l, y = 0) (j : ℕ) :
    (incSum 0 l).getD j 0 = 0 := by
  by_cases hj : j < l.length
  · rw [incSum_getD l 0 j hj,
      List.sum_eq_zero (fun x hx => h x (List.take_subset (j + 1) l hx))]
    ring
  · rw [List.getD_eq_default _ _ (by rw [incSum_length]; omega)]

theorem incSum_getD_all_one (l : List ℚ) (h : ∀ y ∈ l, y = 1) (j : ℕ)
    (hj : j < l.length) : (incSum 0 l).getD j 0 = (j : ℚ) + 1 := by
  rw [incSum_getD l 0 j hj,
    sum_of_all_one (l.take (j + 1)) (fun y hy => h y (List.take_subset (j + 1) l hy)),
    List.length_take, min_eq_left (by omega)]
  push_cast
  ring

theorem trapz_nan_head (y x : List FVal) (hy : 2 ≤ y.length) (hx : 2 ≤ x.length)
    (h : y.getD 0 (FVal.fin 0) = FVal.nan ∨ x.getD 0 (FVal.fin 0) = FVal.nan) :
    trapz y x = FVal.nan := by
  obtain ⟨y0, y1, ys, rfl⟩ : ∃ a b t, y = a :: b :: t := by
    cases y with
    | nil => simp at hy
    | cons a t =>
        cases t with
        | nil => simp at hy
        | cons b r => exact ⟨a, b, r, rfl⟩
  obtain ⟨x0, x1, xs, rfl⟩ : ∃ a b t, x = a :: b :: t := by
    cases x with
    | nil => simp at hx
    | cons a t =>
        cases t with
        | nil => simp at hx
        | cons b r => exact ⟨a, b, r, rfl⟩
  show ((x1 - x0) * (y0 + y1) / FVal.fin 2 + x0 * y0 / FVal.fin 2) +
      trapzSum (y1 :: ys) (x1 :: xs) = FVal.nan
  rcases h with h0 | h0 <;> rw [List.getD_cons_zero] at h0 <;> subst h0
  · rw [FVal.nan_add y1, FVal.mul_nan, FVal.nan_div, FVal.mul_nan, FVal.nan_div,
      FVal.nan_add, FVal.nan_add]
  · rw [FVal.sub_nan, FVal.nan_mul, FVal.nan_div, FVal.nan_mul, FVal.nan_div,
      FVal.nan_add, FVal.nan_add]

/-- C6 amended: for inputs whose labels are all 0 or all 1 and which
produce at least two compacted points, the NaN from the unguarded rate
division does propagate into the final scalar AUC (the first rate array
entry is NaN and every integration term built from it is NaN). -/
theorem C6_degenerate_nan (pred label : List ℚ)
    (hlen : label.length = pred.length)
    (hlab : (∀ x ∈ label, x = 0) ∨ (∀ x ∈ label, x = 1))
    (h2 : 2 ≤ aucNumSelected pred label) :
    finalize_metric pred label = FVal.nan := by
  have hy : 2 ≤ (aucTprs pred label).length := by
    rw [aucTprs_length]
    exact h2
  have hx : 2 ≤ (aucFprs pred label).length := by
    rw [aucFprs_length]
    exact h2
  have h0fp : 0 < (flaggedPos (aucFlag pred label)).length := by
    rw [← aucNumSelected_eq pred label hlen]
    omega
  have h0k : 0 < (aucTpr0 pred label).length := by
    show 0 < aucNumSelected pred label
    omega
  rw [finalize_metric]
  apply trapz_nan_head _ _ hy hx
  rcases hlab with h0 | h1
  · left
    have hls : ∀ y ∈ aucLabelSort pred label, y = 0 :=
      fun y hy' => h0 y (mem_aucLabelSort pred label y hy')
    have htpr00 : (aucTpr0 pred label).getD 0 0 = 0 := by
      rw [aucTpr0_eq pred label hlen,
        getD_map_of_lt (fun j => (aucIncSum pred label).getD j 0) 0 0 _ 0 h0fp,
        aucIncSum]
      exact incSum_getD_all_zero _ hls _
    have hpos : aucPosCnt pred label = 0 := by
      rw [aucPosCnt, aucTpr0_eq pred label hlen]
      by_cases hc : aucNumSelected pred label - 1 <
          (flaggedPos (aucFlag pred label)).length
      · rw [getD_map_of_lt (fun j => (aucIncSum pred label).getD j 0) 0 0 _ _ hc,
          aucIncSum]
        exact incSum_getD_all_zero _ hls _
      · rw [List.getD_eq_default _ _ (by rw [List.length_map]; omega)]
    rw [aucTprs_eq,
      getD_map_of_lt (fun tp => FVal.fin tp / FVal.fin (aucPosCnt pred label))
        (FVal.fin 0) 0 _ 0 h0k, htpr00, hpos]
    exact FVal.zero_div_zero
  · right
    have hls : ∀ y ∈ aucLabelSort pred label, y = 1 :=
      fun y hy' => h1 y (mem_aucLabelSort pred label y hy')
    have hkeq := aucNumSelected_eq pred label hlen
    have hueq := aucUniqueIndex_eq pred label hlen
    have hlslen : (aucLabelSort pred label).length = pred.length :=
      aucLabelSort_length pred label hlen
    have hflaglen : (aucFlag pred label).length = pred.length :=
      aucFlag_length pred label hlen
    have hu0lt : (flaggedPos (aucFlag pred label)).getD 0 0 < pred.length := by
      rw [← hflaglen]
      exact flaggedPos_lt _ _ (getD_mem_of_lt _ 0 0 h0fp)
    have hn1 : 1 ≤ pred.length := by omega
    have hflagne : aucFlag pred label ≠ [] := by
      intro h
      rw [h] at hflaglen
      simp at hflaglen
      omega
    have hflaglast : (aucFlag pred label).getD ((aucFlag pred label).length - 1) 0 = 1 := by
      have hps : aucPredSort pred label ≠ [] := by
        intro h
        have hpl := aucPredSort_length pred label hlen
        rw [h] at hpl
        simp at hpl
        omega
      have h1f := unique_flag_last (aucPredSort pred label) hps
      rw [aucFlag, unique_flag_length]
      exact h1f
    have hfp := flaggedPos_last (aucFlag pred label) hflagne hflaglast
    have hklt : aucNumSelected pred label - 1 <
        (flaggedPos (aucFlag pred label)).length := by
      rw [hkeq] at h2 ⊢
      omega
    have hulast_lt : (flaggedPos (aucFlag pred label)).getD
        ((flaggedPos (aucFlag pred label)).length - 1) 0 < pred.length := by
      rw [hfp.2, hflaglen]
      omega
    have hposn : aucPosCnt pred label = (pred.length : ℚ) := by
      rw [aucPosCnt, aucTpr0_eq pred label hlen,
        getD_map_of_lt (fun j => (aucIncSum pred label).getD j 0) 0 0 _ _ hklt,
        aucIncSum, hkeq,
        incSum_getD_all_one _ hls _ (by rw [hlslen]; exact hulast_lt),
        hfp.2, hflaglen, Nat.cast_sub hn1]
      push_cast
      ring
    have hnegc : aucNegCnt pred label = 0 := by
      rw [aucNegCnt, hposn]
      ring
    have htpr00 : (aucTpr0 pred label).getD 0 0 =
        ((flaggedPos (aucFlag pred label)).getD 0 0 : ℚ) + 1 := by
      rw [aucTpr0_eq pred label hlen,
        getD_map_of_lt (fun j => (aucIncSum pred label).getD j 0) 0 0 _ 0 h0fp,
        aucIncSum]
      exact incSum_getD_all_one _ hls _ (by rw [hlslen]; exact hu0lt)
    have hiu : 0 < (aucUniqueIndex pred label).length := by
      rw [aucUniqueIndex_length]
      omega
    have hzip : 0 < ((aucTpr0 pred label).zip (aucUniqueIndex pred label)).length := by
      rw [List.length_zip]
      exact lt_min h0k hiu
    rw [aucFprs_eq,
      getD_map_of_lt (fun p => FVal.fin (1 + (p.2 : ℚ) - p.1) /
        FVal.fin (aucNegCnt pred label)) (FVal.fin 0) (0, 0) _ 0 hzip,
      getD_zip _ _ 0 0 0 h0k hiu, htpr00, hueq, hnegc]
    have hzero : 1 + ((flaggedPos (aucFlag pred label)).getD 0 0 : ℚ) -
        (((flaggedPos (aucFlag pred label)).getD 0 0 : ℚ) + 1) = 0 := by
      ring
    rw [hzero]
    exact FVal.zero_div_zero

/-- C6 amended-claim witness: predictions `[0.9, 0.8]` with labels
`[1, 1]` (two compacted points, all labels 1) give AUC = NaN. -/
theorem C6_degenerate_nan_witness :
    finalize_metric [9/10, 8/10] [1, 1] = FVal.nan := by
  have hflag : aucFlag [9/10, 8/10] [1, 1] = [1, 1] := by
    rw [aucFlag, aucPredSort, aucSorted]
    norm_num [sortPairsDescending, insertDesc, unique_flag, eps]
  have htpr0 : aucTpr0 [9/10, 8/10] [1, 1] = [1, 2] := by
    rw [aucTpr0, hflag, aucIncSum, aucLabelSort, aucSorted]
    norm_num [sortPairsDescending, insertDesc, incSum, selectFlagged]
  exact C6_degenerate_nan [9/10, 8/10] [1, 1] (by norm_num)
    (Or.inr (by intro x hx; simp at hx; exact hx))
    (by rw [aucNumSelected, htpr0]; simp)

theorem fle_fin_fin (a b : ℚ) :
    FVal.fle (FVal.fin a) (FVal.fin b) = true ↔ a ≤ b := by
  simp [FVal.fle]

theorem chain'_of_getD {α : Type} (R : α → α → Prop) (d : α) (l : List α)
    (h : ∀ i, i + 1 < l.length → R (l.getD i d) (l.getD (i + 1) d)) :
    List.Chain' R l := by
  induction l with
  | nil => exact List.chain'_nil
  | cons a t ih =>
      cases t with
      | nil => simp
      | cons b r =>
          rw [List.chain'_cons]
          constructor
          · have := h 0 (by simp)
            simpa using this
          · exact ih (fun i hi => by
              have := h (i + 1) (by simp at hi ⊢; omega)
              simpa using this)

theorem chain'_getD {α : Type} (R : α → α → Prop) (d : α) (l : List α)
    (hc : List.Chain' R l) :
    ∀ i, i + 1 < l.length → R (l.getD i d) (l.getD (i + 1) d) := by
  induction l with
  | nil => intro i hi; simp at hi
  | cons a t ih =>
      cases t with
      | nil => intro i hi; simp at hi
      | cons b r =>
          rw [List.chain'_cons] at hc
          intro i hi
          cases i with
          | zero => simpa using hc.1
          | succ m =>
              simp only [List.getD_cons_succ]
              exact ih hc.2 m (by simp at hi ⊢; omega)

theorem incSum_getD_mono (l : List ℚ) (h0 : ∀ y ∈ l, 0 ≤ y) {i j : ℕ}
    (hij : i ≤ j) (hj : j < l.length) :
    (incSum 0 l).getD i 0 ≤ (incSum 0 l).getD j 0 := by
  have hi : i < l.length := by omega
  rw [incSum_getD l 0 i hi, incSum_getD l 0 j hj]
  have hsplit : l.take (j + 1) = l.take (i + 1) ++ (l.drop (i + 1)).take (j - i) := by
    rw [← List.take_add]
    congr 1
    omega
  rw [hsplit, List.sum_append]
  have hmid : 0 ≤ ((l.drop (i + 1)).take (j - i)).sum :=
    List.sum_nonneg (fun x hx =>
      h0 x (List.drop_subset (i + 1) l (List.take_subset _ _ hx)))
  linarith

theorem incSum_getD_lipschitz (l : List ℚ) (h1 : ∀ y ∈ l, y ≤ 1) {i j : ℕ}
    (hij : i ≤ j) (hj : j < l.length) :
    (incSum 0 l).getD j 0 ≤ (incSum 0 l).getD i 0 + ((j - i : ℕ) : ℚ) := by
  have hi : i < l.length := by omega
  rw [incSum_getD l 0 i hi, incSum_getD l 0 j hj]
  have hsplit : l.take (j + 1) = l.take (i + 1) ++ (l.drop (i + 1)).take (j - i) := by
    rw [← List.take_add]
    congr 1
    omega
  rw [hsplit, List.sum_append]
  have hmid := sum_le_length ((l.drop (i + 1)).take (j - i)) (fun x hx =>
    h1 x (List.drop_subset (i + 1) l (List.take_subset _ _ hx)))
  have hmlen : ((((l.drop (i + 1)).take (j - i)).length : ℕ) : ℚ) ≤ ((j - i : ℕ) : ℚ) := by
    have : ((l.drop (i + 1)).take (j - i)).length ≤ j - i := by
      rw [List.length_take]
      exact min_le_left _ _
    exact_mod_cast this
  linarith

/-- C7 counterexample: for predictions `[0.9, 0.8]` with labels `[0, 0]`
(labels all in {0, 1}), the compacted TPR array is `[NaN, NaN]`, which is
not non-decreasing under the IEEE comparison (`NaN ≤ NaN` is false). -/
theorem C7_counterexample :
    ¬ (List.Chain' (fun a b => FVal.fle a b = true) (aucTprs [9/10, 8/10] [0, 0]) ∧
       List.Chain' (fun a b => FVal.fle a b = true) (aucFprs [9/10, 8/10] [0, 0])) := by
  have hflag : aucFlag [9/10, 8/10] [0, 0] = [1, 1] := by
    rw [aucFlag, aucPredSort, aucSorted]
    norm_num [sortPairsDescending, insertDesc, unique_flag, eps]
  have htpr0 : aucTpr0 [9/10, 8/10] [0, 0] = [0, 0] := by
    rw [aucTpr0, hflag, aucIncSum, aucLabelSort, aucSorted]
    norm_num [sortPairsDescending, insertDesc, incSum, selectFlagged]
  have hn : aucNumSelected [9/10, 8/10] [0, 0] = 2 := by
    rw [aucNumSelected, htpr0]
    rfl
  have hu : aucUniqueIndex [9/10, 8/10] [0, 0] = [0, 1] := by
    rw [aucUniqueIndex, hflag, hn]
    rfl
  have htprs : aucTprs [9/10, 8/10] [0, 0] = [FVal.nan, FVal.nan] := by
    rw [aucTprs, aucRates, htpr0, hu]
    norm_num [create_fpr]
  intro h
  have h1 := h.1
  rw [htprs, List.chain'_cons] at h1
  have : FVal.fle FVal.nan FVal.nan = false := rfl
  rw [this] at h1
  exact Bool.false_ne_true h1.1

/-- C7 amended: whenever both `totalPositives` and `totalNegatives` are
nonzero (so no rate division is by zero), the compacted TPR and FPR
sequences produced by finalize are both non-decreasing; the original
unrestricted claim fails only on degenerate label sets whose rates are
NaN. -/
theorem C7_monotone_rates (pred label : List ℚ)
    (hlen : label.length = pred.length)
    (hlab : ∀ x ∈ label, x = 0 ∨ x = 1)
    (hpos : aucPosCnt pred label ≠ 0) (hneg : aucNegCnt pred label ≠ 0) :
    List.Chain' (fun a b => FVal.fle a b = true) (aucTprs pred label) ∧
    List.Chain' (fun a b => FVal.fle a b = true) (aucFprs pred label) := by
  have hls01 : ∀ y ∈ aucLabelSort pred label, y = 0 ∨ y = 1 :=
    fun y hy => hlab y (mem_aucLabelSort pred label y hy)
  have hls0 : ∀ y ∈ aucLabelSort pred label, 0 ≤ y := by
    intro y hy
    rcases hls01 y hy with rfl | rfl <;> norm_num
  have hls1 : ∀ y ∈ aucLabelSort pred label, y ≤ 1 := by
    intro y hy
    rcases hls01 y hy with rfl | rfl <;> norm_num
  have hlslen := aucLabelSort_length pred label hlen
  have hflaglen := aucFlag_length pred label hlen
  have hkeq := aucNumSelected_eq pred label hlen
  have hueq := aucUniqueIndex_eq pred label hlen
  have hk1 : 1 ≤ aucNumSelected pred label := by
    by_contra hk
    have hk0 : (aucTpr0 pred label).length = 0 := by
      show aucNumSelected pred label = 0
      omega
    have hnil : aucTpr0 pred label = [] := List.eq_nil_of_length_eq_zero hk0
    apply hpos
    rw [aucPosCnt, hnil]
    rfl
  have hklt : aucNumSelected pred label - 1 <
      (flaggedPos (aucFlag pred label)).length := by
    rw [← hkeq]
    omega
  have htpr0getD : ∀ m, m < (flaggedPos (aucFlag pred label)).length →
      (aucTpr0 pred label).getD m 0 =
        (aucIncSum pred label).getD ((flaggedPos (aucFlag pred label)).getD m 0) 0 := by
    intro m hm
    rw [aucTpr0_eq pred label hlen,
      getD_map_of_lt (fun j => (aucIncSum pred label).getD j 0) 0 0 _ m hm]
  have hbound : ∀ m, m < (flaggedPos (aucFlag pred label)).length →
      (flaggedPos (aucFlag pred label)).getD m 0 < pred.length := by
    intro m hm
    rw [← hflaglen]
    exact flaggedPos_lt _ _ (getD_mem_of_lt _ m 0 hm)
  have hposle : 0 ≤ aucPosCnt pred label := by
    rw [aucPosCnt, htpr0getD _ hklt, aucIncSum]
    exact incSum_getD_nonneg _ hls0 _
  have hpos' : 0 < aucPosCnt pred label := lt_of_le_of_ne hposle (Ne.symm hpos)
  have hposlen : aucPosCnt pred label ≤ (pred.length : ℚ) := by
    rw [aucPosCnt, htpr0getD _ hklt, aucIncSum]
    have hb := incSum_getD_le (aucLabelSort pred label) hls1 _
      (by rw [hlslen]; exact hbound _ hklt)
    have hcast : ((flaggedPos (aucFlag pred label)).getD
        (aucNumSelected pred label - 1) 0 : ℚ) + 1 ≤ (pred.length : ℚ) := by
      have := hbound _ hklt
      exact_mod_cast this
    linarith
  have hneg' : 0 < aucNegCnt pred label := by
    refine lt_of_le_of_ne ?_ (Ne.symm hneg)
    rw [aucNegCnt]
    linarith
  have hadj := chain'_getD _ 0 _ (flaggedPos_chain (aucFlag pred label))
  constructor
  · apply chain'_of_getD _ (FVal.fin 0)
    intro i hi
    have hi' : i + 1 < (aucTpr0 pred label).length := by
      rw [aucTprs_eq, List.length_map] at hi
      exact hi
    have hifp : i + 1 < (flaggedPos (aucFlag pred label)).length := by
      rw [← hkeq]
      exact hi'
    rw [aucTprs_eq,
      getD_map_of_lt (fun tp => FVal.fin tp / FVal.fin (aucPosCnt pred label))
        (FVal.fin 0) 0 _ i (by omega),
      getD_map_of_lt (fun tp => FVal.fin tp / FVal.fin (aucPosCnt pred label))
        (FVal.fin 0) 0 _ (i + 1) hi',
      FVal.fin_div_fin _ hpos, FVal.fin_div_fin _ hpos, fle_fin_fin]
    have hlt := hadj i hifp
    have hle : (aucTpr0 pred label).getD i 0 ≤ (aucTpr0 pred label).getD (i + 1) 0 := by
      rw [htpr0getD i (by omega), htpr0getD (i + 1) hifp, aucIncSum]
      exact incSum_getD_mono _ hls0 (le_of_lt hlt)
        (by rw [hlslen]; exact hbound _ hifp)
    exact (div_le_div_iff_of_pos_right hpos').mpr hle
  · apply chain'_of_getD _ (FVal.fin 0)
    intro i hi
    have hik : i + 1 < aucNumSelected pred label := by
      rw [aucFprs_length] at hi
      exact hi
    have hit : i + 1 < (aucTpr0 pred label).length := hik
    have hiu : i + 1 < (aucUniqueIndex pred label).length := by
      rw [aucUniqueIndex_length]
      exact hik
    have hzip1 : i < ((aucTpr0 pred label).zip (aucUniqueIndex pred label)).length := by
      rw [List.length_zip]
      exact lt_min (by omega) (by omega)
    have hzip2 : i + 1 <
        ((aucTpr0 pred label).zip (aucUniqueIndex pred label)).length := by
      rw [List.length_zip]
      exact lt_min hit hiu
    rw [aucFprs_eq,
      getD_map_of_lt (fun p => FVal.fin (1 + (p.2 : ℚ) - p.1) /
        FVal.fin (aucNegCnt pred label)) (FVal.fin 0) (0, 0)
        ((aucTpr0 pred label).zip (aucUniqueIndex pred label)) i hzip1,
      getD_map_of_lt (fun p => FVal.fin (1 + (p.2 : ℚ) - p.1) /
        FVal.fin (aucNegCnt pred label)) (FVal.fin 0) (0, 0)
        ((aucTpr0 pred label).zip (aucUniqueIndex pred label)) (i + 1) hzip2,
      getD_zip _ _ 0 0 i (by omega) (by omega),
      getD_zip _ _ 0 0 (i + 1) hit hiu,
      FVal.fin_div_fin _ hneg, FVal.fin_div_fin _ hneg, fle_fin_fin]
    have hifp : i + 1 < (flaggedPos (aucFlag pred label)).length := by
      rw [← hkeq]
      exact hik
    have hlt := hadj i hifp
    rw [hueq, htpr0getD i (by omega), htpr0getD (i + 1) hifp, aucIncSum]
    have hlips := incSum_getD_lipschitz (aucLabelSort pred label) hls1
      (le_of_lt hlt) (by rw [hlslen]; exact hbound _ hifp)
    rw [Nat.cast_sub (le_of_lt hlt)] at hlips
    apply (div_le_div_iff_of_pos_right hneg').mpr
    push_cast at hlips ⊢
    linarith

/-- C7 amended-claim witness: on predictions `[1, 0]` with labels
`[1, 0]` both compacted rate sequences are non-decreasing. -/
theorem C7_monotone_rates_witness :
    List.Chain' (fun a b => FVal.fle a b = true) (aucTprs [1, 0] [1, 0]) ∧
    List.Chain' (fun a b => FVal.fle a b = true) (aucFprs [1, 0] [1, 0]) := by
  have hflag : aucFlag [1, 0] [1, 0] = [1, 1] := by
    rw [aucFlag, aucPredSort, aucSorted]
    norm_num [sortPairsDescending, insertDesc, unique_flag, eps]
  have htpr0 : aucTpr0 [1, 0] [1, 0] = [1, 1] := by
    rw [aucTpr0, hflag, aucIncSum, aucLabelSort, aucSorted]
    norm_num [sortPairsDescending, insertDesc, incSum, selectFlagged]
  have hn : aucNumSelected [1, 0] [1, 0] = 2 := by
    rw [aucNumSelected, htpr0]
    rfl
  have hpos : aucPosCnt [1, 0] [1, 0] ≠ 0 := by
    rw [aucPosCnt, htpr0, hn]
    norm_num
  have hneg : aucNegCnt [1, 0] [1, 0] ≠ 0 := by
    rw [aucNegCnt, aucPosCnt, htpr0, hn]
    norm_num
  exact C7_monotone_rates [1, 0] [1, 0] (by norm_num)
    (by intro x hx; simp at hx; rcases hx with rfl | rfl
        · right; rfl
        · left; rfl)
    hpos hneg

end Metrics
